import Mathlib

/-!
Verification of the tai64 package (tai64n.go): conversion from the TAI64 and
TAI64N external formats into civil (UTC-anchored) timestamps.

Modelling conventions:
* Go strings are modelled as `List Char` (all accepted inputs are ASCII, where
  Go's byte indexing and per-character indexing agree; inputs containing
  non-ASCII bytes are rejected by both the model and the code).
* Byte slices are modelled as `List (Fin 256)`.
* `time.Time` is modelled by its observable (Unix seconds, nanoseconds) pair;
  `time.Unix` performs the nanosecond normalisation the Go library performs.
* Go `int64` arithmetic wraps (two's complement); the wrap is made explicit
  with `wrap64` at the one subtraction in `EpochTime` where it can fire, and
  inside the `time.Unix` normalisation.
* `strconv.ParseUint(s, 16, bitSize)` accumulates hex digits and fails on an
  empty string, a non-hex character, or a value exceeding `2^bitSize - 1`.
  Go checks overflow incrementally per digit; since `Nat` is unbounded the
  model accumulates exactly and checks the bound at the end, which accepts
  and rejects exactly the same strings with the same values.
-/

namespace Tai64

/-- The leap second table from tai64n.go: all leap seconds added since 1972,
in TAI seconds since the Unix epoch, most recent first. -/
def leapSeconds : List Int :=
  [1341100834,
   1230768033,
   1136073632,
   915148831,
   867715230,
   820454429,
   773020828,
   741484827,
   709948826,
   662688025,
   631152024,
   567993623,
   489024022,
   425865621,
   394329620,
   362793619,
   315532818,
   283996817,
   252460816,
   220924815,
   189302414,
   157766413,
   126230412,
   94694411,
   78796810,
   63072009]

/-- A civil timestamp: the observable (Unix seconds, nanoseconds) pair of a
Go `time.Time` value. -/
structure Time where
  sec : Int
  nsec : Int
  deriving DecidableEq

/-- Reduce an integer to the `int64` range by two's-complement wrapping. -/
def wrap64 (n : Int) : Int := (n + 2 ^ 63) % 2 ^ 64 - 2 ^ 63

/-- Go's `time.Unix(sec, nsec)`: normalises `nsec` into `[0, 10^9)`,
carrying whole seconds into `sec` (with `int64` wrapping, and Go's
truncating signed division). -/
def timeUnix (sec nsec : Int) : Time :=
  if nsec < 0 ∨ 10 ^ 9 ≤ nsec then
    let q := Int.tdiv nsec (10 ^ 9)
    let sec1 := wrap64 (sec + q)
    let nsec1 := nsec - q * 10 ^ 9
    if nsec1 < 0 then { sec := wrap64 (sec1 - 1), nsec := nsec1 + 10 ^ 9 }
    else { sec := sec1, nsec := nsec1 }
  else { sec := sec, nsec := nsec }

/-- The zero `time.Time` (January 1, year 1, 00:00:00 UTC), as its Unix
seconds value. -/
def timeZero : Time := { sec := -62135596800, nsec := 0 }

/-- The error type of the package (`type Error struct { message string }`). -/
structure Error where
  message : String
  deriving DecidableEq

/-- The distinguished sentinel `parseError = Error{"Parse Error"}`. -/
def parseError : Error := { message := "Parse Error" }

/-- The loop of `EpochTime`: for each table entry, decrement the offset,
then stop as soon as `secs > l`. -/
def epochOffsetGo (secs : Int) : List Int → Int → Int
  | [], offset => offset
  | l :: rest, offset =>
    if secs > l then offset - 1 else epochOffsetGo secs rest (offset - 1)

/-- The offset computed by `EpochTime`: start at `len(leapSeconds) + 10`
and run the scan loop. -/
def epochOffset (secs : Int) : Int :=
  epochOffsetGo secs leapSeconds ((leapSeconds.length : Int) + 10)

/-- `EpochTime(secs, nsecs)`: `time.Unix(secs-int64(offset), nsecs)`.
The subtraction is Go `int64` arithmetic, hence the explicit wrap. -/
def EpochTime (secs nsecs : Int) : Time :=
  timeUnix (wrap64 (secs - epochOffset secs)) nsecs

/-- The value of one hex digit, as in `strconv.ParseUint` with base 16
(digits `0-9`, `a-f`, `A-F`). -/
def hexDigitValue (c : Char) : Option Nat :=
  if '0' ≤ c ∧ c ≤ '9' then some (c.toNat - '0'.toNat)
  else if 'a' ≤ c ∧ c ≤ 'f' then some (c.toNat - 'a'.toNat + 10)
  else if 'A' ≤ c ∧ c ≤ 'F' then some (c.toNat - 'A'.toNat + 10)
  else none

/-- Accumulate base-16 digits left to right; fail on a non-hex character. -/
def parseUintHexCore : List Char → Nat → Option Nat
  | [], acc => some acc
  | c :: rest, acc =>
    match hexDigitValue c with
    | some d => parseUintHexCore rest (acc * 16 + d)
    | none => none

/-- `strconv.ParseUint(s, 16, bitSize)`: fails on the empty string, on any
non-hex character, and on values exceeding `2^bitSize - 1`. -/
def parseUintHex (cs : List Char) (bitSize : Nat) : Option Nat :=
  if cs.isEmpty then none
  else
    match parseUintHexCore cs 0 with
    | some n => if n < 2 ^ bitSize then some n else none
    | none => none

/-- `int64(sec - (1<<62))` for a `uint64` argument: wrapping unsigned
subtraction modulo `2^64`, then signed reinterpretation of the result.
This helper is the biasing expression shared by all four decoders. -/
def biasedSecs (sec : Nat) : Int :=
  let w : Nat := (sec + 2 ^ 64 - 2 ^ 62) % 2 ^ 64
  if w < 2 ^ 63 then (w : Int) else (w : Int) - 2 ^ 64

/-- `ParseTai64(s)`: requires length 17 and leading `@`; parses 16 hex
digits; rejects `sec > 1<<63`; returns `EpochTime(int64(sec-(1<<62)), 0)`. -/
def ParseTai64 (s : List Char) : Time × Option Error :=
  if s.length = 17 ∧ s.head? = some '@' then
    match parseUintHex (s.drop 1) 64 with
    | some sec =>
      if 2 ^ 63 < sec then (timeZero, some parseError)
      else (EpochTime (biasedSecs sec) 0, none)
    | none => (timeZero, some parseError)
  else (timeZero, some parseError)

/-- `ParseTai64n(s)`: requires length 25 and leading `@`; `s[1:17]` is the
seconds field, `s[17:25]` the nanosecond field; rejects `sec > 1<<63`. -/
def ParseTai64n (s : List Char) : Time × Option Error :=
  if s.length = 25 ∧ s.head? = some '@' then
    match parseUintHex ((s.drop 1).take 16) 64 with
    | some sec =>
      match parseUintHex (s.drop 17) 32 with
      | some nsec =>
        if 2 ^ 63 < sec then (timeZero, some parseError)
        else (EpochTime (biasedSecs sec) (Int.ofNat nsec), none)
      | none => (timeZero, some parseError)
    | none => (timeZero, some parseError)
  else (timeZero, some parseError)

/-- Big-endian value of a byte slice (`binary.BigEndian.Uint64` reads the 8
bytes of its argument this way, `Uint32` the 4 bytes). -/
def beValue (b : List (Fin 256)) : Nat :=
  b.foldl (fun acc x => acc * 256 + x.val) 0

/-- `DecodeTai64(b)`: requires exactly 8 bytes; big-endian seconds; rejects
`sec > 1<<63`. -/
def DecodeTai64 (b : List (Fin 256)) : Time × Option Error :=
  if b.length = 8 then
    if 2 ^ 63 < beValue b then (timeZero, some parseError)
    else (EpochTime (biasedSecs (beValue b)) 0, none)
  else (timeZero, some parseError)

/-- `DecodeTai64n(b)`: requires exactly 12 bytes; `b[0:8]` big-endian
seconds, `b[8:12]` big-endian nanoseconds; rejects `sec > 1<<63`. -/
def DecodeTai64n (b : List (Fin 256)) : Time × Option Error :=
  if b.length = 12 then
    if 2 ^ 63 < beValue (b.take 8) then (timeZero, some parseError)
    else (EpochTime (biasedSecs (beValue (b.take 8))) (Int.ofNat (beValue (b.drop 8))), none)
  else (timeZero, some parseError)

/-- Modelled from the claim wording for the scan of `EpochTime`: the offset
starts at (table length) + 10 and is decremented once for each scanned entry
up to and including the first entry strictly less than `secs`, i.e. it ends
at (length + 10) − (index of that entry + 1); it ends at its minimum 10 when
no entry qualifies. This is the specification-side description, to be
compared with the loop `epochOffset`. -/
def offsetByScan (secs : Int) : Int :=
  match leapSeconds.findIdx? (fun l => decide (l < secs)) with
  | some i => ((leapSeconds.length : Int) + 10) - ((i : Int) + 1)
  | none => 10

/-- The 25 genuine leap-second insertions: every table entry except the
trailing 63072009, which marks the 1972 baseline (TAI−UTC = 10) rather than
an inserted leap second. -/
def mainLeaps : List Int := leapSeconds.dropLast

/-- Number of genuine leap-second insertions strictly before `secs`
(in TAI seconds since the Unix epoch). -/
def countLeaps (secs : Int) : Nat :=
  mainLeaps.countP (fun l => decide (l < secs))

/-- Number of genuine leap-second insertions in the interval `[a, b)`. -/
def crossCount (a b : Int) : Nat :=
  mainLeaps.countP (fun l => decide (a ≤ l ∧ l < b))

/-- The whole-second carry that `timeUnix` adds to its seconds argument
when normalising a nanosecond argument `nsec`. -/
def secAdjust (nsec : Int) : Int :=
  if nsec < 0 ∨ 10 ^ 9 ≤ nsec then
    let q := Int.tdiv nsec (10 ^ 9)
    if nsec - q * 10 ^ 9 < 0 then q - 1 else q
  else 0

/-! ### Basic facts about the table and the wrap -/

theorem wrap64_eq_self {n : Int} (h1 : -(2 ^ 63) ≤ n) (h2 : n < 2 ^ 63) :
    wrap64 n = n := by
  unfold wrap64
  omega

theorem wrap64_wrap64_sub_one (x : Int) : wrap64 (wrap64 x - 1) = wrap64 (x - 1) := by
  unfold wrap64
  omega

theorem leapSeconds_sorted : List.Pairwise (fun x y : Int => y ≤ x) leapSeconds := by
  decide

theorem leapSeconds_split : leapSeconds = mainLeaps ++ [63072009] := by
  decide

theorem mainLeaps_nodup : mainLeaps.Nodup := by
  decide

theorem mainLeaps_gt : ∀ l ∈ mainLeaps, 63072009 < l := by
  decide

theorem mainLeaps_le : ∀ l ∈ mainLeaps, l ≤ 1341100834 := by
  decide

/-! ### The scan loop: index form and counting form -/

/-- The loop equals the claim-side description: the start value minus
(index of the first entry strictly below `secs`, plus one), or minus the
whole length when no entry qualifies. -/
theorem epochOffsetGo_eq_findIdx (secs : Int) (L : List Int) : ∀ o : Int,
    epochOffsetGo secs L o =
      match L.findIdx? (fun l => decide (l < secs)) with
      | some i => o - ((i : Int) + 1)
      | none => o - L.length := by
  induction L with
  | nil => intro o; simp [epochOffsetGo]
  | cons l rest ih =>
    intro o
    by_cases h : secs > l
    · have hl : decide (l < secs) = true := by simpa using h
      simp [epochOffsetGo, h, List.findIdx?_cons, hl]
    · have hl : decide (l < secs) = false := by simpa using h
      have ih' := ih (o - 1)
      rw [epochOffsetGo, if_neg h]
      cases hf : rest.findIdx? (fun l => decide (l < secs)) with
      | none =>
        rw [hf] at ih'
        simp only [] at ih'
        rw [ih']
        simp only [List.findIdx?_cons, hl, Bool.false_eq_true, if_false,
          List.findIdx?_succ, hf, Option.map_none', List.length_cons]
        push_cast
        ring
      | some i =>
        rw [hf] at ih'
        simp only [] at ih'
        rw [ih']
        simp only [List.findIdx?_cons, hl, Bool.false_eq_true, if_false,
          List.findIdx?_succ, hf, Option.map_some']
        push_cast
        ring

/-- On a descending list, the loop result is determined by how many entries
lie strictly below `secs`. -/
theorem epochOffsetGo_count (secs : Int) :
    ∀ L : List Int, List.Pairwise (fun x y : Int => y ≤ x) L → ∀ o : Int,
      epochOffsetGo secs L o =
        if L.countP (fun l => decide (l < secs)) = 0 then o - L.length
        else o - L.length + L.countP (fun l => decide (l < secs)) - 1 := by
  intro L
  induction L with
  | nil => intro _ o; simp [epochOffsetGo]
  | cons l rest ih =>
    intro hs o
    obtain ⟨h1, h2⟩ := List.pairwise_cons.mp hs
    by_cases h : secs > l
    · have hall : rest.countP (fun x => decide (x < secs)) = rest.length :=
        List.countP_eq_length.mpr (fun a ha => by
          simpa using lt_of_le_of_lt (h1 a ha) h)
      have hl : decide (l < secs) = true := by simpa using h
      have hc : (l :: rest).countP (fun x => decide (x < secs)) = rest.length + 1 := by
        simp [List.countP_cons, hl, hall]
      rw [epochOffsetGo, if_pos h, hc, if_neg (by omega), List.length_cons]
      push_cast
      ring
    · have hl : decide (l < secs) = false := by simpa using h
      have hc : (l :: rest).countP (fun x => decide (x < secs)) =
          rest.countP (fun x => decide (x < secs)) := by
        simp [List.countP_cons, hl]
      rw [epochOffsetGo, if_neg h, ih h2 (o - 1), hc, List.length_cons]
      by_cases h0 : rest.countP (fun x => decide (x < secs)) = 0
      · rw [if_pos h0, if_pos h0]
        push_cast
        ring
      · rw [if_neg h0, if_neg h0]
        push_cast
        ring

/-- Closed form for the code's offset: 10 plus the number of genuine
leap-second insertions strictly before `secs`. The 1972 baseline entry
63072009 never contributes. -/
theorem epochOffset_eq (secs : Int) : epochOffset secs = 10 + countLeaps secs := by
  rw [epochOffset, epochOffsetGo_count secs leapSeconds leapSeconds_sorted]
  have hsplit : leapSeconds.countP (fun l => decide (l < secs)) =
      countLeaps secs + (if 63072009 < secs then 1 else 0) := by
    rw [leapSeconds_split, List.countP_append, countLeaps]
    simp [List.countP_cons]
  have hlen : leapSeconds.length = 26 := by decide
  rcases Nat.eq_zero_or_pos (countLeaps secs) with hm | hm
  · by_cases hbig : 63072009 < secs
    · rw [hsplit, hm, if_pos hbig, if_neg (by omega), hlen]
      push_cast
      try ring
    · rw [hsplit, hm, if_neg hbig, if_pos (by omega), hlen]
      push_cast
      try ring
  · have hmem : ∃ l ∈ mainLeaps, decide (l < secs) = true := by
      have := List.countP_pos_iff (p := fun l => decide (l < secs)) (l := mainLeaps)
      exact this.mp (by rw [countLeaps] at hm; omega)
    obtain ⟨l, hl, hls⟩ := hmem
    have hbig : 63072009 < secs :=
      lt_trans (mainLeaps_gt l hl) (by simpa using hls)
    rw [hsplit, if_pos hbig, if_neg (by omega), hlen]
    push_cast
    ring

theorem countLeaps_le (secs : Int) : countLeaps secs ≤ 25 := by
  have h := List.countP_le_length (p := fun l => decide (l < secs)) (l := mainLeaps)
  have hlen : mainLeaps.length = 25 := by decide
  rw [countLeaps]
  omega

theorem epochOffset_bounds (secs : Int) :
    10 ≤ epochOffset secs ∧ epochOffset secs ≤ 35 := by
  have h := epochOffset_eq secs
  have h2 := countLeaps_le secs
  omega

/-! ### Counting leap entries in an interval -/

theorem countP_lt_split (a b : Int) (hab : a ≤ b) (L : List Int) :
    L.countP (fun l => decide (l < b)) =
      L.countP (fun l => decide (l < a)) + L.countP (fun l => decide (a ≤ l ∧ l < b)) := by
  induction L with
  | nil => simp
  | cons x rest ih =>
    simp only [List.countP_cons, ih, decide_eq_true_eq]
    split_ifs <;> omega

theorem countLeaps_split (a b : Int) (hab : a ≤ b) :
    countLeaps b = countLeaps a + crossCount a b :=
  countP_lt_split a b hab mainLeaps

/-- At most `b - a` of the (pairwise distinct) genuine leap instants lie in
the interval `[a, b)`. -/
theorem crossCount_le (a b : Int) (hab : a ≤ b) : (crossCount a b : Int) ≤ b - a := by
  rw [crossCount, List.countP_eq_length_filter]
  have hnd2 := mainLeaps_nodup.filter (p := fun l => decide (a ≤ l ∧ l < b))
  have hsub : (mainLeaps.filter (fun l => decide (a ≤ l ∧ l < b))).toFinset ⊆
      Finset.Ico a b := by
    intro x hx
    rw [List.mem_toFinset] at hx
    have hpx := List.of_mem_filter hx
    simp only [decide_eq_true_eq] at hpx
    simpa [Finset.mem_Ico] using hpx
  have hcard := Finset.card_le_card hsub
  rw [List.toFinset_card_of_nodup hnd2, Int.card_Ico] at hcard
  omega

/-- Each genuine leap instant is counted exactly once by the unit interval
that starts at it. -/
theorem crossCount_self {l : Int} (hl : l ∈ mainLeaps) : crossCount l (l + 1) = 1 := by
  rw [crossCount]
  have hcongr : mainLeaps.countP (fun x => decide (l ≤ x ∧ x < l + 1)) =
      mainLeaps.countP (fun x => x == l) := by
    refine List.countP_congr (fun x _ => ?_)
    simp only [decide_eq_true_eq, beq_iff_eq]
    omega
  rw [hcongr]
  exact List.count_eq_one_of_mem mainLeaps_nodup hl

/-! ### The seconds field of `timeUnix` -/

theorem wrap64_range (n : Int) : -(2 ^ 63) ≤ wrap64 n ∧ wrap64 n < 2 ^ 63 := by
  unfold wrap64
  omega

theorem secAdjust_eq (nsec : Int) :
    secAdjust nsec =
      if nsec < 0 ∨ 10 ^ 9 ≤ nsec then
        (if nsec - Int.tdiv nsec (10 ^ 9) * 10 ^ 9 < 0 then Int.tdiv nsec (10 ^ 9) - 1
         else Int.tdiv nsec (10 ^ 9))
      else 0 := rfl

theorem timeUnix_sec (sec nsec : Int) (hs1 : -(2 ^ 63) ≤ sec) (hs2 : sec < 2 ^ 63) :
    (timeUnix sec nsec).sec = wrap64 (sec + secAdjust nsec) := by
  rw [timeUnix, secAdjust]
  by_cases h : nsec < 0 ∨ 10 ^ 9 ≤ nsec
  · rw [if_pos h, if_pos h]
    by_cases h2 : nsec - Int.tdiv nsec (10 ^ 9) * 10 ^ 9 < 0
    · rw [if_pos h2, if_pos h2]
      show wrap64 (wrap64 (sec + Int.tdiv nsec (10 ^ 9)) - 1) = _
      rw [wrap64_wrap64_sub_one]
      ring_nf
    · rw [if_neg h2, if_neg h2]
  · rw [if_neg h, if_neg h]
    show sec = wrap64 (sec + 0)
    rw [add_zero, wrap64_eq_self hs1 hs2]

theorem secAdjust_bounds {nsec : Int} (h1 : 0 ≤ nsec) (h2 : nsec < 2 ^ 32) :
    0 ≤ secAdjust nsec ∧ secAdjust nsec ≤ 4 := by
  have hq : Int.tdiv nsec (10 ^ 9) = nsec / 10 ^ 9 :=
    Int.tdiv_eq_ediv h1 (by norm_num)
  rw [secAdjust_eq, hq]
  split_ifs <;> omega

/-- For inputs away from the `int64` underflow band, the Unix seconds of
`EpochTime(secs, n)` is `secs` minus the closed-form offset, plus the
whole-second carry of the nanosecond normalisation. -/
theorem epochTime_sec (secs n : Int)
    (h1 : -(2 ^ 63) + 36 ≤ secs) (h2 : secs < 2 ^ 63)
    (hn1 : 0 ≤ n) (hn2 : n < 2 ^ 32) :
    (EpochTime secs n).sec = secs - (10 + (countLeaps secs : Int)) + secAdjust n := by
  have hoff := epochOffset_eq secs
  have hbd := countLeaps_le secs
  have hadj := secAdjust_bounds hn1 hn2
  rw [EpochTime, wrap64_eq_self (n := secs - epochOffset secs) (by omega) (by omega),
    timeUnix_sec _ _ (by omega) (by omega),
    wrap64_eq_self (by omega) (by omega), hoff]

/-! ### Hex parsing and biasing helpers -/

theorem parseUintHexCore_none {cs : List Char}
    (h : ∃ c ∈ cs, hexDigitValue c = none) :
    ∀ acc, parseUintHexCore cs acc = none := by
  induction cs with
  | nil => simp at h
  | cons c rest ih =>
    intro acc
    rcases h with ⟨d, hd, hdv⟩
    rcases List.mem_cons.mp hd with rfl | hdr
    · rw [parseUintHexCore, hdv]
    · rw [parseUintHexCore]
      cases hcv : hexDigitValue c with
      | none => rfl
      | some v => exact ih ⟨d, hdr, hdv⟩ (acc * 16 + v)

theorem parseUintHex_none {cs : List Char}
    (h : ∃ c ∈ cs, hexDigitValue c = none) (bs : Nat) :
    parseUintHex cs bs = none := by
  cases cs with
  | nil => simp at h
  | cons c rest =>
    rw [parseUintHex]
    rw [if_neg (by simp)]
    rw [parseUintHexCore_none h 0]

theorem biasedSecs_eq {sec : Nat} (h : sec ≤ 2 ^ 63) :
    biasedSecs sec = (sec : Int) - 2 ^ 62 := by
  rw [biasedSecs]
  split_ifs with hw <;> omega

/-! ### Claim theorems -/

/-- Claim C1 (counterexample): the final step of `EpochTime` is the Go
`int64` subtraction `secs - int64(offset)`, which wraps. At
`secs = -2^63` the offset is 10 and the returned instant is `2^63 - 10`
seconds after the Unix epoch, not the claimed `secs - offset = -2^63 - 10`
seconds. -/
theorem epochTime_scan_counterexample :
    epochOffset (-(2 ^ 63)) = 10 ∧
    (EpochTime (-(2 ^ 63)) 0).sec = 2 ^ 63 - 10 ∧
    (2 ^ 63 - 10 : Int) ≠ -(2 ^ 63) - 10 :=
  ⟨by decide, by decide, by decide⟩

/-- Claim C1 (amended): for every signed 64-bit `secs` outside the
underflow band (`secs ≥ -2^63 + 36`) and every `nsecs`, `EpochTime`
computes an offset equal to (table length + 10) − (1 + index of the first
entry strictly less than `secs`, scanning the stored most-recent-first
order) — the offset reaching its minimum of 10 when no entry qualifies —
and returns the instant `(secs − offset)` seconds plus `nsecs` nanoseconds
since the Unix epoch. (For `secs` below the band the subtraction wraps in
`int64`, per the counterexample.) -/
theorem epochTime_scan (secs nsecs : Int)
    (h1 : -(2 ^ 63) + 36 ≤ secs) (h2 : secs < 2 ^ 63) :
    epochOffset secs = offsetByScan secs ∧
    EpochTime secs nsecs = timeUnix (secs - offsetByScan secs) nsecs := by
  have heq : epochOffset secs = offsetByScan secs := by
    rw [epochOffset, offsetByScan, epochOffsetGo_eq_findIdx]
    cases hf : leapSeconds.findIdx? (fun l => decide (l < secs)) with
    | none =>
      simp only []
      ring
    | some i => simp only []
  have hb := epochOffset_bounds secs
  rw [heq] at hb
  refine ⟨heq, ?_⟩
  rw [EpochTime, heq, wrap64_eq_self (by omega) (by omega)]

theorem epochTime_scan_witness :
    epochOffset 0 = offsetByScan 0 ∧
    EpochTime 0 0 = timeUnix (0 - offsetByScan 0) 0 :=
  epochTime_scan 0 0 (by decide) (by decide)

/-- Claim C5 (counterexample): `EpochTime(2^62 - 10, 0)` is not the Unix
epoch instant; it is `2^62 - 45` seconds after the epoch (the argument
`2^62 - 10` lies far above every table entry, so the offset is 35). -/
theorem epochTime_epoch_counterexample :
    EpochTime (2 ^ 62 - 10) 0 = { sec := 2 ^ 62 - 45, nsec := 0 } ∧
    ({ sec := 2 ^ 62 - 45, nsec := 0 } : Time) ≠ { sec := 0, nsec := 0 } :=
  ⟨by decide, by decide⟩

/-- Claim C5 (amended): the argument of `EpochTime` is already biased by
`2^62` (it is label − 2^62), so the Unix epoch instant is produced by
`EpochTime(10, 0)` — coming from the TAI64 label `2^62 + 10`, with 10 the
base TAI−UTC offset and zero leap seconds elapsed — not by
`EpochTime(2^62 − 10, 0)`. -/
theorem epochTime_epoch : EpochTime 10 0 = { sec := 0, nsec := 0 } := by
  decide

/-- Claim C7: `EpochTime` is total over all signed 64-bit seconds values:
the scan starts at table length + 10, decrements at least once and at most
table-length times (so the offset always lands in [10, 35] and never
indexes out of range), and the function always returns the civil
timestamp built from `secs`, the offset and `nsecs`. -/
theorem epochTime_total (secs nsecs : Int) :
    10 ≤ epochOffset secs ∧ epochOffset secs ≤ (leapSeconds.length : Int) + 10 ∧
    EpochTime secs nsecs = timeUnix (wrap64 (secs - epochOffset secs)) nsecs := by
  refine ⟨(epochOffset_bounds secs).1, ?_, rfl⟩
  have h := (epochOffset_bounds secs).2
  have hlen : ((leapSeconds.length : Nat) : Int) = 26 := by decide
  omega

/-- Claim C8: the leap-second table is a constant sequence of exactly 26
entries in strictly descending (most-recent-first) order. Immutability is
inherent in the embedding: the table is a closed term and no operation of
the package rebinds it. -/
theorem leapSeconds_table :
    leapSeconds.length = 26 ∧
    List.Pairwise (fun x y : Int => y < x) leapSeconds := by
  decide

/-- Claim C4 (counterexample): crossing the leap-second boundary at table
entry 1341100834 (June 2012) with `a = 1341100834 < b = 1341100835`
(one genuine leap entry in `[a, b)`) gives a result gap of `b − a − 1 = 0`,
not the claimed increase to `b − a + 1 = 2`: the offset grows from 34 to 35
across the boundary, shrinking the gap. -/
theorem epochTime_gap_counterexample :
    crossCount 1341100834 1341100835 = 1 ∧
    epochOffset 1341100834 = 34 ∧
    epochOffset 1341100835 = 35 ∧
    (EpochTime 1341100835 0).sec - (EpochTime 1341100834 0).sec = 0 ∧
    (0 : Int) ≠ (1341100835 - 1341100834) + 1 :=
  ⟨by decide, by decide, by decide, by decide, by decide⟩

/-- Claim C4 (amended): for signed 64-bit seconds `a < b` away from the
`int64` underflow band and a nanosecond field `n` in the decoders' range
`[0, 2^32)`: if no genuine leap-second boundary (a table entry other than
the oldest, 1972-baseline entry) lies in `[a, b)`, then `EpochTime(a, n)`
strictly precedes `EpochTime(b, n)` and the gap `b − a` is preserved
exactly; if exactly one such boundary lies in `[a, b)`, the gap between the
results *decreases* by exactly 1 (it is `b − a − 1`), because the extra TAI
second is absorbed by the growing offset. -/
theorem epochTime_gap (a b n : Int)
    (h1 : -(2 ^ 63) + 36 ≤ a) (hab : a < b) (h2 : b < 2 ^ 63)
    (hn1 : 0 ≤ n) (hn2 : n < 2 ^ 32) :
    (crossCount a b = 0 →
      (EpochTime a n).sec < (EpochTime b n).sec ∧
      (EpochTime b n).sec - (EpochTime a n).sec = b - a) ∧
    (crossCount a b = 1 →
      (EpochTime b n).sec - (EpochTime a n).sec = b - a - 1) := by
  have hsa := epochTime_sec a n h1 (lt_trans hab h2) hn1 hn2
  have hsb := epochTime_sec b n (le_trans h1 (le_of_lt hab)) h2 hn1 hn2
  have hsplit := countLeaps_split a b (le_of_lt hab)
  have key : (EpochTime b n).sec - (EpochTime a n).sec =
      (b - a) - (crossCount a b : Int) := by
    rw [hsa, hsb]
    omega
  exact ⟨fun h0 => by constructor <;> omega, fun h1c => by omega⟩

theorem epochTime_gap_witness :
    ((EpochTime 5 0).sec < (EpochTime 7 0).sec ∧
      (EpochTime 7 0).sec - (EpochTime 5 0).sec = 7 - 5) ∧
    (EpochTime 1341100835 0).sec - (EpochTime 1341100834 0).sec =
      1341100835 - 1341100834 - 1 :=
  ⟨(epochTime_gap 5 7 0 (by decide) (by decide) (by decide) (by decide)
      (by decide)).1 (by decide),
   (epochTime_gap 1341100834 1341100835 0 (by decide) (by decide) (by decide)
      (by decide) (by decide)).2 (by decide)⟩

/-- Claim C9 (counterexample): over all `int64` values the map is not
monotone: at `a = -2^63 ≤ b = 0` the subtraction `a - offset` underflows
`int64` and wraps to `2^63 - 10`, so `EpochTime(a, 0)` lands strictly
after `EpochTime(0, 0)`. -/
theorem epochTime_monotone_counterexample :
    (-(2 ^ 63) : Int) ≤ 0 ∧
    (EpochTime 0 0).sec < (EpochTime (-(2 ^ 63)) 0).sec :=
  ⟨by decide, by decide⟩

/-- Claim C9 (amended): for signed 64-bit seconds `a ≤ b` with `a` above
the `int64` underflow band and a nanosecond field in the decoders' range,
the Unix seconds of `EpochTime(a, n)` is at most that of
`EpochTime(b, n)`: the offset grows by the number of genuine leap entries
in `[a, b)`, which never exceeds `b − a`. Moreover at each genuine
leap-second boundary `l` the two consecutive TAI seconds `l` and `l + 1`
map to the same Unix second. -/
theorem epochTime_monotone (a b n : Int)
    (h1 : -(2 ^ 63) + 36 ≤ a) (hab : a ≤ b) (h2 : b < 2 ^ 63)
    (hn1 : 0 ≤ n) (hn2 : n < 2 ^ 32) :
    (EpochTime a n).sec ≤ (EpochTime b n).sec ∧
    ∀ l ∈ mainLeaps, (EpochTime l n).sec = (EpochTime (l + 1) n).sec := by
  constructor
  · have hsa := epochTime_sec a n h1 (lt_of_le_of_lt hab h2) hn1 hn2
    have hsb := epochTime_sec b n (le_trans h1 hab) h2 hn1 hn2
    have hsplit := countLeaps_split a b hab
    have hle := crossCount_le a b hab
    rw [hsa, hsb]
    omega
  · intro l hl
    have hgt := mainLeaps_gt l hl
    have hle := mainLeaps_le l hl
    have hsl := epochTime_sec l n (by omega) (by omega) hn1 hn2
    have hsl1 := epochTime_sec (l + 1) n (by omega) (by omega) hn1 hn2
    have hsplit := countLeaps_split l (l + 1) (by omega)
    have hone := crossCount_self hl
    rw [hsl, hsl1]
    omega

theorem epochTime_monotone_witness :
    (EpochTime 0 0).sec ≤ (EpochTime 5 0).sec ∧
    (EpochTime 1341100834 0).sec = (EpochTime (1341100834 + 1) 0).sec :=
  ⟨(epochTime_monotone 0 5 0 (by decide) (by decide) (by decide) (by decide)
      (by decide)).1,
   (epochTime_monotone 0 5 0 (by decide) (by decide) (by decide) (by decide)
      (by decide)).2 1341100834 (by decide)⟩

/-- Claim C10: for every seconds value that passes the range guard
(`sec ≤ 2^63`), the wrapping unsigned subtraction `sec - (1<<62)` followed
by signed reinterpretation — `biasedSecs`, the expression shared by all
four decoders — equals the exact mathematical value `sec − 2^62`, which
lies in `[−2^62, 2^62]` and hence fits in `int64`. -/
theorem biasedSecs_exact (sec : Nat) (h : sec ≤ 2 ^ 63) :
    biasedSecs sec = (sec : Int) - 2 ^ 62 ∧
    -(2 ^ 62) ≤ biasedSecs sec ∧ biasedSecs sec ≤ 2 ^ 62 := by
  have he := biasedSecs_eq h
  refine ⟨he, ?_, ?_⟩ <;> rw [he] <;> omega

theorem biasedSecs_exact_witness :
    biasedSecs 0 = ((0 : Nat) : Int) - 2 ^ 62 ∧
    -(2 ^ 62) ≤ biasedSecs 0 ∧ biasedSecs 0 ≤ 2 ^ 62 :=
  biasedSecs_exact 0 (by decide)

/-- Claim C6: `ParseTai64` succeeds exactly on strings of length 17 whose
first character is `@` and whose remaining 16 characters parse as hex
digits to a value passing the range guard (`n ≤ 2^63`); on success it
returns the civil timestamp `EpochTime(n − 2^62, 0)` with the subtraction
exact. -/
theorem parseTai64_charn (s : List Char) :
    ((ParseTai64 s).2 = none ↔
      s.length = 17 ∧ s.head? = some '@' ∧
      ∃ n, parseUintHex (s.drop 1) 64 = some n ∧ n ≤ 2 ^ 63) ∧
    ∀ n, s.length = 17 → s.head? = some '@' →
      parseUintHex (s.drop 1) 64 = some n → n ≤ 2 ^ 63 →
      ParseTai64 s = (EpochTime ((n : Int) - 2 ^ 62) 0, none) := by
  constructor
  · rw [ParseTai64]
    by_cases hc : s.length = 17 ∧ s.head? = some '@'
    · rw [if_pos hc]
      cases hp : parseUintHex (s.drop 1) 64 with
      | none => simp [hc.1, hc.2]
      | some v =>
        simp only []
        by_cases hr : 2 ^ 63 < v
        · rw [if_pos hr]
          simp [hc.1, hc.2]
          omega
        · rw [if_neg hr]
          simp [hc.1, hc.2]
          omega
    · rw [if_neg hc]
      exact ⟨fun habs => absurd habs (by simp),
        fun h => absurd ⟨h.1, h.2.1⟩ hc⟩
  · intro n hl hh hp hr
    rw [ParseTai64, if_pos ⟨hl, hh⟩, hp]
    simp only []
    rw [if_neg (by omega), biasedSecs_eq hr]

theorem parseTai64_charn_witness :
    ParseTai64 ("@4000000000000000".toList) =
      (EpochTime (((4611686018427387904 : Nat) : Int) - 2 ^ 62) 0, none) :=
  (parseTai64_charn _).2 4611686018427387904 (by decide) (by decide)
    (by decide) (by decide)

/-- Claim C2: a valid 25-character TAI64N hex string (marker plus 24 hex
digits, seconds field passing the range guard) and the 12 bytes encoding
the same seconds and nanoseconds values decode to identical civil
timestamps under `ParseTai64n` and `DecodeTai64n`. -/
theorem parse_decode_agree (s : List Char) (b : List (Fin 256)) (sec nsec : Nat)
    (hlen : s.length = 25) (hhead : s.head? = some '@')
    (hsec : parseUintHex ((s.drop 1).take 16) 64 = some sec)
    (hnsec : parseUintHex (s.drop 17) 32 = some nsec)
    (hrange : sec ≤ 2 ^ 63)
    (hblen : b.length = 12)
    (hbsec : beValue (b.take 8) = sec)
    (hbnsec : beValue (b.drop 8) = nsec) :
    ParseTai64n s = DecodeTai64n b := by
  rw [ParseTai64n, if_pos ⟨hlen, hhead⟩, hsec]
  simp only []
  rw [hnsec]
  simp only []
  rw [if_neg (by omega)]
  rw [DecodeTai64n, if_pos hblen, hbsec, hbnsec, if_neg (by omega)]

theorem parse_decode_agree_witness :
    ParseTai64n ("@4000000037c219bf2ef02e94".toList) =
      DecodeTai64n [0x40, 0x00, 0x00, 0x00, 0x37, 0xc2, 0x19, 0xbf,
        0x2e, 0xf0, 0x2e, 0x94] :=
  parse_decode_agree _ _ 4611686019362855359 787492500 (by decide) (by decide)
    (by decide) (by decide) (by decide) (by decide) (by decide) (by decide)

/-- Claim C3 (counterexample): the range guard in the code is
`sec > 1<<63`, not `sec ≥ 1<<63`: the string whose 16 hex digits encode
exactly `2^63` is accepted by `ParseTai64` (no `ParseError`), so an input
with seconds value `≥ 2^63` does not always fail. -/
theorem reject_malformed_counterexample :
    parseUintHex (("@8000000000000000".toList).drop 1) 64 = some (2 ^ 63) ∧
    (ParseTai64 ("@8000000000000000".toList)).2 = none :=
  ⟨by decide, by decide⟩

/-- Claim C3 (amended): for every entry point, every input that is missing
the marker character, has the wrong length (including off by one in either
direction), contains a non-hexadecimal character, or encodes a seconds
value *strictly greater than* `2^63` yields the distinguished
`parseError` together with the zero-value timestamp, and no partial
result is returned. (The boundary value `2^63` itself is accepted, per the
counterexample.) -/
theorem reject_malformed :
    (∀ s : List Char,
      (s.head? ≠ some '@' ∨ s.length ≠ 17 ∨
        (∃ c ∈ s.drop 1, hexDigitValue c = none) ∨
        ∃ n, parseUintHex (s.drop 1) 64 = some n ∧ 2 ^ 63 < n) →
      ParseTai64 s = (timeZero, some parseError)) ∧
    (∀ s : List Char,
      (s.head? ≠ some '@' ∨ s.length ≠ 25 ∨
        (∃ c ∈ s.drop 1, hexDigitValue c = none) ∨
        ∃ n, parseUintHex ((s.drop 1).take 16) 64 = some n ∧ 2 ^ 63 < n) →
      ParseTai64n s = (timeZero, some parseError)) ∧
    (∀ b : List (Fin 256),
      (b.length ≠ 8 ∨ 2 ^ 63 < beValue b) →
      DecodeTai64 b = (timeZero, some parseError)) ∧
    (∀ b : List (Fin 256),
      (b.length ≠ 12 ∨ 2 ^ 63 < beValue (b.take 8)) →
      DecodeTai64n b = (timeZero, some parseError)) := by
  refine ⟨?_, ?_, ?_, ?_⟩
  · intro s h
    rw [ParseTai64]
    by_cases hc : s.length = 17 ∧ s.head? = some '@'
    case neg => rw [if_neg hc]
    rw [if_pos hc]
    rcases h with h | h | h | h
    · exact absurd hc.2 h
    · exact absurd hc.1 h
    · rw [parseUintHex_none h 64]
    · obtain ⟨n, hn, hgt⟩ := h
      rw [hn]
      simp only []
      rw [if_pos hgt]
  · intro s h
    rw [ParseTai64n]
    by_cases hc : s.length = 25 ∧ s.head? = some '@'
    case neg => rw [if_neg hc]
    rw [if_pos hc]
    have hsplit17 : (s.drop 1).drop 16 = s.drop 17 := by
      rw [List.drop_drop]
    rcases h with h | h | h | h
    · exact absurd hc.2 h
    · exact absurd hc.1 h
    · obtain ⟨c, hcmem, hcbad⟩ := h
      rw [← List.take_append_drop 16 (s.drop 1)] at hcmem
      rcases List.mem_append.mp hcmem with hin | hin
      · rw [parseUintHex_none ⟨c, hin, hcbad⟩ 64]
      · rw [hsplit17] at hin
        cases hp : parseUintHex ((s.drop 1).take 16) 64 with
        | none => rfl
        | some v =>
          simp only []
          rw [parseUintHex_none ⟨c, hin, hcbad⟩ 32]
    · obtain ⟨n, hn, hgt⟩ := h
      rw [hn]
      simp only []
      cases hp2 : parseUintHex (s.drop 17) 32 with
      | none => rfl
      | some w =>
        simp only []
        rw [if_pos hgt]
  · intro b h
    rw [DecodeTai64]
    by_cases hc : b.length = 8
    case neg => rw [if_neg hc]
    rw [if_pos hc]
    rcases h with h | h
    · exact absurd hc h
    · rw [if_pos h]
  · intro b h
    rw [DecodeTai64n]
    by_cases hc : b.length = 12
    case neg => rw [if_neg hc]
    rw [if_pos hc]
    rcases h with h | h
    · exact absurd hc h
    · rw [if_pos h]

theorem reject_malformed_witness :
    ParseTai64 ("4000000000000000x".toList) = (timeZero, some parseError) ∧
    ParseTai64n ("@123".toList) = (timeZero, some parseError) ∧
    DecodeTai64 [] = (timeZero, some parseError) ∧
    DecodeTai64n [0xF0, 0, 0, 0, 0, 0, 0, 0, 0, 0, 0, 0] =
      (timeZero, some parseError) :=
  ⟨reject_malformed.1 _ (Or.inl (by decide)),
   reject_malformed.2.1 _ (Or.inr (Or.inl (by decide))),
   reject_malformed.2.2.1 _ (Or.inl (by decide)),
   reject_malformed.2.2.2 _ (Or.inr (by decide))⟩

end Tai64
